import Mathlib

/-!
Shallow embedding of the animation engine in `src/animation.rs` of the
CSM-Dream-Team/workbench repository.

Conventions of the embedding:
* The `f32` time/parameter scalars (`Time`, `DeltaTime`, `Param`) are modelled
  as exact rationals `ℚ`; division is Lean's total division on `ℚ`
  (so `0 / 0 = 0`).
* `VecDeque<(Animate<V>, Time)>` is modelled as the inductive list `Queue V`
  (front of the deque = head of the list).
* `Arc<Fn(..)>` callables are modelled as plain Lean functions.
* The `Mixable`/`Mixer` trait pair is modelled as a class bundling the mixer
  carrier type with its `new`/`add`/`close` operations; the derived
  `linear`/`quadratic`/`cubic`/`mix` combinators are translated from the
  trait's default methods.
* The unit-rotation mixer works over real-valued quaternions, since its
  `close` renormalizes with a square root.
-/

/-- The `Mixable`/`Mixer` capability from `animation.rs`: a value type opts in
by supplying an accumulator type together with `new`, `add`, `close`. -/
class Mixable (V : Type) : Type 1 where
  Mixer : Type
  mnew : Mixer
  madd : Mixer → V → ℚ → Mixer
  mclose : Mixer → V

/-- `Mixable::linear`: mix two values, weights `1 - t` and `t`. -/
def Mixable.linear {V : Type} [i : Mixable V] (a b : V) (t : ℚ) : V :=
  i.mclose (i.madd (i.madd i.mnew a (1 - t)) b t)

/-- `Mixable::quadratic`: quadratic Bezier blend of three values. -/
def Mixable.quadratic {V : Type} [i : Mixable V] (a b c : V) (t : ℚ) : V :=
  i.mclose (i.madd (i.madd (i.madd i.mnew a ((1 - t) * (1 - t))) b (2 * (1 - t) * t)) c (t * t))

/-- `Mixable::cubic`: cubic Bezier blend of four values. -/
def Mixable.cubic {V : Type} [i : Mixable V] (a b c d : V) (t : ℚ) : V :=
  i.mclose (i.madd (i.madd (i.madd (i.madd i.mnew a ((1 - t) * (1 - t) * (1 - t)))
    b (3 * ((1 - t) * (1 - t)) * t)) c (3 * (1 - t) * (t * t))) d (t * t * t))

/-- `Mixable::mix`: fold an arbitrary list of weighted values into one. -/
def Mixable.mix {V : Type} [i : Mixable V] (l : List (V × ℚ)) : V :=
  i.mclose (l.foldl (fun acc p => i.madd acc p.1 p.2) i.mnew)

/-- `impl Mixer<Self> for f32`: accumulator is a running weighted sum. -/
instance ratMixable : Mixable ℚ where
  Mixer := ℚ
  mnew := 0
  madd m v w := m + v * w
  mclose m := m

mutual
/-- The `Animate<V>` enum from `animation.rs`, variant by variant. -/
inductive Animate (V : Type) : Type where
  | Fixed : V → Animate V
  | Slide : V → V → ℚ → Animate V
  | Linear : V → V → ℚ → ℚ → Animate V
  | Quadratic : V → V → V → ℚ → ℚ → Animate V
  | Cubic : V → V → V → V → ℚ → ℚ → Animate V
  | BoundedLinear : V → V → ℚ → ℚ → Animate V
  | BoundedQuadratic : V → V → V → ℚ → ℚ → Animate V
  | BoundedCubic : V → V → V → V → ℚ → ℚ → Animate V
  | Switch : V → V → ℚ → Animate V
  | SmoothSwitch : V → V → ℚ → ℚ → Animate V
  | SoftSwitch : V → V → ℤ → ℚ → ℚ → Animate V
  | Func : (ℚ → V) → ℚ → Animate V
  | MixFunc : (ℚ → ℚ) → V → V → ℚ → Animate V
  | StepFunc : (V → ℚ → V) → V → Animate V
  | Sequence : AnimateSequence V → Animate V

/-- The `AnimateSequence<V>` struct: a queue of (animation, duration) pairs
and the value held once the queue is empty. -/
inductive AnimateSequence (V : Type) : Type where
  | mk : Queue V → V → AnimateSequence V

/-- The `VecDeque<(Animate<V>, Time)>` queue, front first. -/
inductive Queue (V : Type) : Type where
  | nil : Queue V
  | cons : Animate V → ℚ → Queue V → Queue V
end

/-- The `queue` field of `AnimateSequence`. -/
def AnimateSequence.queue {V : Type} : AnimateSequence V → Queue V
  | ⟨q, _⟩ => q

/-- The `end` field of `AnimateSequence`. -/
def AnimateSequence.endv {V : Type} : AnimateSequence V → V
  | ⟨_, e⟩ => e

/-- `VecDeque::drain(..count)`: drop the first `n` entries. -/
def Queue.dropN {V : Type} : Nat → Queue V → Queue V
  | 0, q => q
  | _ + 1, Queue.nil => Queue.nil
  | n + 1, Queue.cons _ _ rest => Queue.dropN n rest

/-- `VecDeque::back()`: the last entry of the queue, if any. -/
def Queue.back? {V : Type} : Queue V → Option (Animate V × ℚ)
  | Queue.nil => none
  | Queue.cons a t Queue.nil => some (a, t)
  | Queue.cons _ _ (Queue.cons b u rest) => Queue.back? (Queue.cons b u rest)

/-- Total remaining duration of a queue. -/
def Queue.durSum {V : Type} : Queue V → ℚ
  | Queue.nil => 0
  | Queue.cons _ t rest => t + Queue.durSum rest

/-- All entry durations in the queue are non-negative. -/
def Queue.allNonneg {V : Type} : Queue V → Prop
  | Queue.nil => True
  | Queue.cons _ t rest => 0 ≤ t ∧ Queue.allNonneg rest

mutual
/-- `Animation::now` for `Animate<V>` (`animation.rs`, `fn now`). -/
def Animate.now {V : Type} [Mixable V] : Animate V → V
  | .Fixed x => x
  | .Slide x _ _ => x
  | .Linear a b s t => Mixable.linear a b (s / (s - t))
  | .Quadratic a b c s t => Mixable.quadratic a b c (s / (s - t))
  | .Cubic a b c d s t => Mixable.cubic a b c d (s / (s - t))
  | .BoundedLinear a b s t => if 0 < s then a else Mixable.linear a b (s / (s - t))
  | .BoundedQuadratic a b c s t => if 0 < s then a else Mixable.quadratic a b c (s / (s - t))
  | .BoundedCubic a b c d s t => if 0 < s then a else Mixable.cubic a b c d (s / (s - t))
  | .Switch a _ _ => a
  | .SmoothSwitch a b s t =>
    if 0 < s then a else
      Mixable.linear a b (3 * (s / (s - t) * (s / (s - t))) - 2 * (s / (s - t) * (s / (s - t))) * (s / (s - t)))
  | .SoftSwitch a b e s t =>
    if 0 < s then a else Mixable.linear a b ((1 - s / (s - t)) ^ e)
  | .Func f t => f t
  | .MixFunc f a b t => Mixable.linear a b (f t)
  | .StepFunc _ v => v
  | .Sequence s => AnimateSequence.now s

/-- `Animation::now` for `AnimateSequence<V>`: the head entry's value, or the
end value when the queue is empty. -/
def AnimateSequence.now {V : Type} [Mixable V] : AnimateSequence V → V
  | ⟨Queue.nil, e⟩ => e
  | ⟨Queue.cons a _ _, _⟩ => Animate.now a
end

mutual
/-- `Animate::do_step`: the per-variant transition function. -/
def Animate.doStep {V : Type} [Mixable V] : Animate V → ℚ → Animate V
  | .Fixed a, _ => .Fixed a
  | .Slide a b t, dt =>
    if t < dt then .Fixed b else .Slide (Mixable.linear a b (dt / t)) b (t - dt)
  | .Linear a b s t, dt => .Linear a b (s - dt) (t - dt)
  | .Quadratic a b c s t, dt => .Quadratic a b c (s - dt) (t - dt)
  | .Cubic a b c d s t, dt => .Cubic a b c d (s - dt) (t - dt)
  | .BoundedLinear a b s t, dt =>
    if t < dt then .Fixed b else .BoundedLinear a b (s - dt) (t - dt)
  | .BoundedQuadratic a b c s t, dt =>
    if t < dt then .Fixed c else .BoundedQuadratic a b c (s - dt) (t - dt)
  | .BoundedCubic a b c d s t, dt =>
    if t < dt then .Fixed d else .BoundedCubic a b c d (s - dt) (t - dt)
  | .Switch a b t, dt => if t < dt then .Fixed b else .Switch a b (t - dt)
  | .SmoothSwitch a b s t, dt =>
    if t < dt then .Fixed b else .SmoothSwitch a b (s - dt) (t - dt)
  | .SoftSwitch a b e s t, dt =>
    if t < dt then .Fixed b else .SoftSwitch a b e (s - dt) (t - dt)
  | .Func f s, dt => .Func f (s + dt)
  | .MixFunc f a b s, dt => .MixFunc f a b (s + dt)
  | .StepFunc f v, dt => .StepFunc f (f v dt)
  | .Sequence s, dt => .Sequence (AnimateSequence.step s dt)

/-- `Animation::step` for `AnimateSequence<V>`: run the front walk, then
drain the consumed prefix in one batch. -/
def AnimateSequence.step {V : Type} [Mixable V] : AnimateSequence V → ℚ → AnimateSequence V
  | ⟨q, e⟩, dt => ⟨Queue.dropN (Queue.stepLoop q dt).1 (Queue.stepLoop q dt).2, e⟩

/-- The `for` loop inside `AnimateSequence::step`: returns the number of
consumed leading entries and the queue as left by the loop (consumed entries
still in place, the break entry advanced in place). -/
def Queue.stepLoop {V : Type} [Mixable V] : Queue V → ℚ → Nat × Queue V
  | Queue.nil, _ => (0, Queue.nil)
  | Queue.cons a t rest, dt =>
    if t < dt then
      ((Queue.stepLoop rest (dt - t)).1 + 1, Queue.cons a t (Queue.stepLoop rest (dt - t)).2)
    else
      (0, Queue.cons (Animate.doStep a dt) (t - dt) rest)
end

/-- `Animation::step` for `Animate<V>` replaces the whole state by
`do_step`'s result. -/
def Animate.step {V : Type} [Mixable V] (x : Animate V) (dt : ℚ) : Animate V :=
  Animate.doStep x dt

/-- The trait-default `Animation::normalize`: a zero-duration step. -/
def Animate.normalize {V : Type} [Mixable V] (x : Animate V) : Animate V :=
  Animate.step x 0

/-- `Animation::normalize` for sequences: a zero-duration step. -/
def AnimateSequence.normalize {V : Type} [Mixable V] (s : AnimateSequence V) : AnimateSequence V :=
  AnimateSequence.step s 0

/-- `Animation::steady` for `Animate<V>`: true exactly on `Fixed`. -/
def Animate.steady {V : Type} : Animate V → Bool
  | .Fixed _ => true
  | _ => false

/-- `Animation::steady` for `AnimateSequence<V>`: look at the queue's back. -/
def AnimateSequence.steady {V : Type} (s : AnimateSequence V) : Bool :=
  match Queue.back? (AnimateSequence.queue s) with
  | some p => Animate.steady p.1
  | none => true

/-- `AnimateSequence::new`. -/
def AnimateSequence.new {V : Type} (e : V) : AnimateSequence V :=
  ⟨Queue.nil, e⟩

/-- `AnimateSequence::before`: push a new entry at the front. -/
def AnimateSequence.before {V : Type} (s : AnimateSequence V) (time : ℚ) (anim : Animate V) :
    AnimateSequence V :=
  ⟨Queue.cons anim time (AnimateSequence.queue s), AnimateSequence.endv s⟩

/-- Fold a list of deltas through `do_step` (cumulative stepping). -/
def Animate.stepAll {V : Type} [Mixable V] (x : Animate V) (ds : List ℚ) : Animate V :=
  ds.foldl Animate.doStep x

mutual
/-- Does the animation contain no `StepFunc` variant anywhere (also inside
nested sequences)? -/
def Animate.noStepFunc {V : Type} : Animate V → Bool
  | .StepFunc _ _ => false
  | .Sequence s => AnimateSequence.noStepFunc s
  | _ => true

/-- `noStepFunc` for sequences: every queued animation is `StepFunc`-free. -/
def AnimateSequence.noStepFunc {V : Type} : AnimateSequence V → Bool
  | ⟨q, _⟩ => Queue.noStepFunc q

/-- `noStepFunc` for queues. -/
def Queue.noStepFunc {V : Type} : Queue V → Bool
  | Queue.nil => true
  | Queue.cons a _ rest => Animate.noStepFunc a && Queue.noStepFunc rest
end

/-- Modelled from the spec (amended): the front walk of
`AnimateSequence::step` expressed directly as a recursive function — consume
every leading entry whose remaining duration is strictly less than the
residual, carrying the leftover forward; the first entry whose remaining
duration is at least the residual is advanced by the residual and its
remaining duration reduced by it, and the walk stops there. -/
def Queue.stepSpec {V : Type} [Mixable V] : Queue V → ℚ → Queue V
  | Queue.nil, _ => Queue.nil
  | Queue.cons a t rest, dt =>
    if t < dt then Queue.stepSpec rest (dt - t)
    else Queue.cons (Animate.doStep a dt) (t - dt) rest

/-- A quaternion over the reals, modelling nalgebra's `Quaternion<F>`. -/
structure Quat : Type where
  w : ℝ
  x : ℝ
  y : ℝ
  z : ℝ

/-- `norm_squared` of a quaternion. -/
noncomputable def Quat.normSq (q : Quat) : ℝ :=
  q.w * q.w + q.x * q.x + q.y * q.y + q.z * q.z

/-- Scalar multiple of a quaternion. -/
noncomputable def Quat.scale (r : ℝ) (q : Quat) : Quat :=
  ⟨r * q.w, r * q.x, r * q.y, r * q.z⟩

/-- `F::default_epsilon()` for `f32`: the machine epsilon `2⁻²³`. -/
noncomputable def f32Epsilon : ℝ := 1 / 2 ^ 23

/-- The `add` of the unit-rotation mixer: accumulate the unwrapped quaternion
times the weight. -/
noncomputable def Quat.maddUnit (acc v : Quat) (wt : ℝ) : Quat :=
  ⟨acc.w + v.w * wt, acc.x + v.x * wt, acc.y + v.y * wt, acc.z + v.z * wt⟩

/-- nalgebra's `Unit::try_new(value, min_norm)`: `some` of the value divided
by its norm when the squared norm strictly exceeds `min_norm²`, else `none`. -/
noncomputable def Quat.tryNewUnit (q : Quat) (minNorm : ℝ) : Option Quat :=
  if minNorm * minNorm < Quat.normSq q
  then some (Quat.scale (Real.sqrt (Quat.normSq q))⁻¹ q)
  else none

/-- The `close` of `impl Mixer<UnitQuaternion<F>> for Quaternion<F>`:
`Unit::try_new(c, F::default_epsilon()).unwrap_or(Unit::new_unchecked(c))`. -/
noncomputable def Quat.closeUnitMix (q : Quat) : Quat :=
  (Quat.tryNewUnit q f32Epsilon).getD q

/-- Evaluation of the scalar `linear` blend. -/
theorem rat_linear (a b t : ℚ) : Mixable.linear a b t = a * (1 - t) + b * t := by
  show (0 + a * (1 - t)) + b * t = a * (1 - t) + b * t
  ring

/-- Evaluation of the scalar `quadratic` blend. -/
theorem rat_quadratic (a b c t : ℚ) :
    Mixable.quadratic a b c t =
      a * ((1 - t) * (1 - t)) + b * (2 * (1 - t) * t) + c * (t * t) := by
  show ((0 + a * ((1 - t) * (1 - t))) + b * (2 * (1 - t) * t)) + c * (t * t) = _
  ring

/-- The drain-count bookkeeping of `AnimateSequence::step` collapses to the
direct recursive walk. -/
theorem stepLoop_drop {V : Type} [Mixable V] :
    ∀ (q : Queue V) (dt : ℚ),
      Queue.dropN (Queue.stepLoop q dt).1 (Queue.stepLoop q dt).2 = Queue.stepSpec q dt
  | Queue.nil, dt => by simp [Queue.stepLoop, Queue.stepSpec, Queue.dropN]
  | Queue.cons a t rest, dt => by
    by_cases h : t < dt
    · simp only [Queue.stepLoop, Queue.stepSpec, if_pos h, Queue.dropN]
      exact stepLoop_drop rest (dt - t)
    · simp [Queue.stepLoop, Queue.stepSpec, if_neg h, Queue.dropN]

/-- `do_step` never leaves the `Fixed` variant, so neither does any fold. -/
theorem stepAll_fixed {V : Type} [Mixable V] (b : V) :
    ∀ ds : List ℚ, Animate.stepAll (Animate.Fixed b) ds = Animate.Fixed b
  | [] => rfl
  | d :: ds => by
    show Animate.stepAll (Animate.doStep (Animate.Fixed b) d) ds = Animate.Fixed b
    rw [show Animate.doStep (Animate.Fixed b) d = Animate.Fixed b from by simp [Animate.doStep]]
    exact stepAll_fixed b ds

/-- The queue's back entry exists whenever the queue is nonempty. -/
theorem back?_cons_isSome {V : Type} :
    ∀ (a : Animate V) (t : ℚ) (rest : Queue V),
      (Queue.back? (Queue.cons a t rest)).isSome = true
  | _, _, Queue.nil => by simp [Queue.back?]
  | _, _, Queue.cons b u r => by
    simp only [Queue.back?]
    exact back?_cons_isSome b u r

/-- A queue of non-negative durations has non-negative total duration. -/
theorem durSum_nonneg {V : Type} :
    ∀ q : Queue V, Queue.allNonneg q → 0 ≤ Queue.durSum q
  | Queue.nil, _ => le_refl 0
  | Queue.cons _ t rest, h => by
    have hq : 0 ≤ t ∧ Queue.allNonneg rest := by simpa [Queue.allNonneg] using h
    have := durSum_nonneg rest hq.2
    simp only [Queue.durSum]
    linarith

mutual
/-- A zero-duration step after any non-negative step is the identity, for
`StepFunc`-free animations over exact scalars. -/
theorem doStep_then_zero :
    ∀ (x : Animate ℚ), Animate.noStepFunc x = true → ∀ d : ℚ, 0 ≤ d →
      Animate.doStep (Animate.doStep x d) 0 = Animate.doStep x d
  | Animate.Fixed a, _, d, _ => by simp [Animate.doStep]
  | Animate.Slide a b t, _, d, hd => by
    by_cases h : t < d
    · simp [Animate.doStep, if_pos h]
    · have h' : ¬ t - d < 0 := by simp at h; linarith
      simp [Animate.doStep, if_neg h, if_neg h', rat_linear]
  | Animate.Linear a b s t, _, d, _ => by simp [Animate.doStep]
  | Animate.Quadratic a b c s t, _, d, _ => by simp [Animate.doStep]
  | Animate.Cubic a b c dd s t, _, d, _ => by simp [Animate.doStep]
  | Animate.BoundedLinear a b s t, _, d, hd => by
    by_cases h : t < d
    · simp [Animate.doStep, if_pos h]
    · have h' : ¬ t - d < 0 := by simp at h; linarith
      simp [Animate.doStep, if_neg h, if_neg h']
  | Animate.BoundedQuadratic a b c s t, _, d, hd => by
    by_cases h : t < d
    · simp [Animate.doStep, if_pos h]
    · have h' : ¬ t - d < 0 := by simp at h; linarith
      simp [Animate.doStep, if_neg h, if_neg h']
  | Animate.BoundedCubic a b c dd s t, _, d, hd => by
    by_cases h : t < d
    · simp [Animate.doStep, if_pos h]
    · have h' : ¬ t - d < 0 := by simp at h; linarith
      simp [Animate.doStep, if_neg h, if_neg h']
  | Animate.Switch a b t, _, d, hd => by
    by_cases h : t < d
    · simp [Animate.doStep, if_pos h]
    · have h' : ¬ t - d < 0 := by simp at h; linarith
      simp [Animate.doStep, if_neg h, if_neg h']
  | Animate.SmoothSwitch a b s t, _, d, hd => by
    by_cases h : t < d
    · simp [Animate.doStep, if_pos h]
    · have h' : ¬ t - d < 0 := by simp at h; linarith
      simp [Animate.doStep, if_neg h, if_neg h']
  | Animate.SoftSwitch a b e s t, _, d, hd => by
    by_cases h : t < d
    · simp [Animate.doStep, if_pos h]
    · have h' : ¬ t - d < 0 := by simp at h; linarith
      simp [Animate.doStep, if_neg h, if_neg h']
  | Animate.Func f s, _, d, _ => by simp [Animate.doStep]
  | Animate.MixFunc f a b s, _, d, _ => by simp [Animate.doStep]
  | Animate.StepFunc f v, hx, d, _ => by simp [Animate.noStepFunc] at hx
  | Animate.Sequence ⟨q, e⟩, hx, d, hd => by
    have hq : Queue.noStepFunc q = true := by
      simpa [Animate.noStepFunc, AnimateSequence.noStepFunc] using hx
    simp only [Animate.doStep, AnimateSequence.step]
    rw [stepLoop_then_zero q hq d hd]
    simp [Queue.dropN]

/-- Re-running the walk with `dt = 0` on the queue produced by a walk leaves
it unchanged (count `0`, no entry modified). -/
theorem stepLoop_then_zero :
    ∀ (q : Queue ℚ), Queue.noStepFunc q = true → ∀ d : ℚ, 0 ≤ d →
      Queue.stepLoop (Queue.dropN (Queue.stepLoop q d).1 (Queue.stepLoop q d).2) 0
        = (0, Queue.dropN (Queue.stepLoop q d).1 (Queue.stepLoop q d).2)
  | Queue.nil, _, d, _ => by simp [Queue.stepLoop, Queue.dropN]
  | Queue.cons a t rest, hq, d, hd => by
    have ha : Animate.noStepFunc a = true := by
      simp [Queue.noStepFunc, Bool.and_eq_true] at hq; exact hq.1
    have hrest : Queue.noStepFunc rest = true := by
      simp [Queue.noStepFunc, Bool.and_eq_true] at hq; exact hq.2
    by_cases h : t < d
    · simp only [Queue.stepLoop, if_pos h, Queue.dropN]
      exact stepLoop_then_zero rest hrest (d - t) (by linarith)
    · have h' : ¬ t - d < 0 := by simp at h; linarith
      simp only [Queue.stepLoop, if_neg h, Queue.dropN, if_neg h']
      rw [doStep_then_zero a ha d hd]
      simp
end

/-- C1 (counterexample): the claim says an entry whose remaining duration is
exactly equal to the residual `dt` is consumed and removed; the code keeps it
(advanced, with zero remaining duration), so the queue is not emptied. -/
theorem c1_counterexample :
    AnimateSequence.step ⟨Queue.cons (Animate.Fixed (0:ℚ)) 1 Queue.nil, 5⟩ 1
      = ⟨Queue.cons (Animate.Fixed 0) 0 Queue.nil, 5⟩
    ∧ AnimateSequence.step ⟨Queue.cons (Animate.Fixed (0:ℚ)) 1 Queue.nil, 5⟩ 1
      ≠ (⟨Queue.nil, 5⟩ : AnimateSequence ℚ) := by
  constructor
  · norm_num [AnimateSequence.step, Queue.stepLoop, Animate.doStep, Queue.dropN]
  · norm_num [AnimateSequence.step, Queue.stepLoop, Animate.doStep, Queue.dropN]
    exact fun hcontra => Queue.noConfusion hcontra

/-- C1 (amended): for every `AnimateSequence` and `dt ≥ 0`, `step(dt)` is the
front walk consuming every leading entry whose remaining duration is strictly
less than the residual; the first entry whose remaining duration is at least
the residual is advanced by the residual, its duration reduced by it, and the
walk stops (an entry whose duration equals the residual is kept at zero). -/
theorem c1_step_is_front_walk {V : Type} [Mixable V] (q : Queue V) (e : V) (dt : ℚ)
    (hdt : 0 ≤ dt) :
    AnimateSequence.step ⟨q, e⟩ dt = ⟨Queue.stepSpec q dt, e⟩ := by
  simp only [AnimateSequence.step]
  rw [stepLoop_drop]

/-- Witness for C1 at a concrete queue and `dt = 3/2`. -/
theorem c1_step_is_front_walk_witness :
    (0:ℚ) ≤ 3/2 ∧
      AnimateSequence.step ⟨Queue.cons (Animate.Fixed (0:ℚ)) 1 Queue.nil, 5⟩ (3/2)
        = ⟨Queue.stepSpec (Queue.cons (Animate.Fixed (0:ℚ)) 1 Queue.nil) (3/2), 5⟩ :=
  ⟨by norm_num,
   c1_step_is_front_walk (Queue.cons (Animate.Fixed (0:ℚ)) 1 Queue.nil) 5 (3/2) (by norm_num)⟩

/-- C2: the sequence `[(Slide(0,1,1.0),1.0), (Slide(1,2,1.0),1.0)]` with
`end = 2`, stepped by `1.5` in one call: the first entry is removed, the
second becomes `Slide(1.5, 2, 0.5)` with remaining duration `0.5`, and `now()`
returns `1.5`. -/
theorem c2_sequence_example :
    AnimateSequence.step
        ⟨Queue.cons (Animate.Slide (0:ℚ) 1 1) 1 (Queue.cons (Animate.Slide 1 2 1) 1 Queue.nil), 2⟩ (3/2)
      = ⟨Queue.cons (Animate.Slide (3/2) 2 (1/2)) (1/2) Queue.nil, 2⟩
    ∧ AnimateSequence.now (AnimateSequence.step
        ⟨Queue.cons (Animate.Slide (0:ℚ) 1 1) 1 (Queue.cons (Animate.Slide 1 2 1) 1 Queue.nil), 2⟩ (3/2)) = 3/2 := by
  constructor
  · norm_num [AnimateSequence.step, Queue.stepLoop, Animate.doStep, Queue.dropN, rat_linear]
  · norm_num [AnimateSequence.step, Queue.stepLoop, Animate.doStep, Queue.dropN, rat_linear,
      AnimateSequence.now, Animate.now]

/-- Stepping a `BoundedLinear` by non-negative deltas summing to strictly more
than the remaining end time `t ≥ 0` reaches `Fixed(b)`. -/
theorem boundedLinear_fold {V : Type} [Mixable V] (a b : V) :
    ∀ (ds : List ℚ) (s t : ℚ), 0 ≤ t → (∀ d ∈ ds, 0 ≤ d) → t < ds.sum →
      Animate.stepAll (Animate.BoundedLinear a b s t) ds = Animate.Fixed b
  | [], _, t, ht, _, hsum => by simp at hsum; linarith
  | d :: ds, s, t, ht, hds, hsum => by
    have hd : 0 ≤ d := hds d (List.mem_cons_self d ds)
    by_cases h : t < d
    · show Animate.stepAll (Animate.doStep (Animate.BoundedLinear a b s t) d) ds = _
      rw [show Animate.doStep (Animate.BoundedLinear a b s t) d = Animate.Fixed b from by
        simp [Animate.doStep, if_pos h]]
      exact stepAll_fixed b ds
    · show Animate.stepAll (Animate.doStep (Animate.BoundedLinear a b s t) d) ds = _
      rw [show Animate.doStep (Animate.BoundedLinear a b s t) d
            = Animate.BoundedLinear a b (s - d) (t - d) from by simp [Animate.doStep, if_neg h]]
      refine boundedLinear_fold a b ds (s - d) (t - d) (by simp at h; linarith)
        (fun x hx => hds x (List.mem_cons_of_mem d hx)) ?_
      simp [List.sum_cons] at hsum
      linarith

/-- C3 (counterexample): `BoundedLinear(0,1,1,1)` stepped by exactly `t = 1`
stays `BoundedLinear(0,1,0,0)`; it does not become `Fixed(1)`. -/
theorem c3_counterexample :
    Animate.doStep (Animate.BoundedLinear (0:ℚ) 1 1 1) 1 = Animate.BoundedLinear 0 1 0 0
    ∧ Animate.steady (Animate.doStep (Animate.BoundedLinear (0:ℚ) 1 1 1) 1) = false := by
  constructor
  · norm_num [Animate.doStep]
  · norm_num [Animate.doStep, Animate.steady]

/-- C3 (amended): for `BoundedLinear(a,b,s,t)` with `0 < s ≤ t`, `now()` is
`a`, and after step calls with non-negative deltas totalling strictly more
than `t` seconds the state has become `Fixed(b)` (exactly `t` seconds leave a
`BoundedLinear` with zero remaining time). -/
theorem c3_boundedLinear_countdown {V : Type} [Mixable V] (a b : V) (s t : ℚ) (ds : List ℚ)
    (hs : 0 < s) (hst : s ≤ t) (hds : ∀ d ∈ ds, 0 ≤ d) :
    Animate.now (Animate.BoundedLinear a b s t) = a
    ∧ (t < ds.sum → Animate.stepAll (Animate.BoundedLinear a b s t) ds = Animate.Fixed b) := by
  constructor
  · simp [Animate.now, if_pos hs]
  · intro hsum
    exact boundedLinear_fold a b ds s t (by linarith) hds hsum

/-- Witness for C3 at `BoundedLinear(0,1,1,1)` stepped by `[2]`. -/
theorem c3_boundedLinear_countdown_witness :
    ((0:ℚ) < 1 ∧ (1:ℚ) ≤ 1 ∧ (∀ d ∈ [(2:ℚ)], 0 ≤ d) ∧ (1:ℚ) < [(2:ℚ)].sum) ∧
      Animate.now (Animate.BoundedLinear (0:ℚ) 1 1 1) = 0 ∧
      Animate.stepAll (Animate.BoundedLinear (0:ℚ) 1 1 1) [2] = Animate.Fixed 1 :=
  ⟨⟨by norm_num, by norm_num, by norm_num, by norm_num⟩,
   (c3_boundedLinear_countdown 0 1 1 1 [2] (by norm_num) (by norm_num) (by norm_num)).1,
   (c3_boundedLinear_countdown 0 1 1 1 [2] (by norm_num) (by norm_num) (by norm_num)).2 (by norm_num)⟩

/-- C4: for `Slide(a,b,T)` over exact scalars with `T > 0`, `step(T)` makes
`now()` equal `b`, and a single `step(dt)` with `0 < dt < T` makes `now()`
the linear blend `(1 - dt/T)·a + (dt/T)·b`. -/
theorem c4_slide_blend (a b T dt : ℚ) (hT : 0 < T) (h0 : 0 < dt) (hlt : dt < T) :
    Animate.now (Animate.doStep (Animate.Slide a b T) T) = b
    ∧ Animate.now (Animate.doStep (Animate.Slide a b T) dt) = (1 - dt / T) * a + (dt / T) * b := by
  constructor
  · have h : ¬ T < T := lt_irrefl T
    simp [Animate.doStep, if_neg h, Animate.now, rat_linear, div_self (ne_of_gt hT)]
  · have h : ¬ T < dt := not_lt.mpr (le_of_lt hlt)
    simp only [Animate.doStep, if_neg h, Animate.now, rat_linear]
    ring

/-- Witness for C4 at `Slide(0,2,2)` and `dt = 1`. -/
theorem c4_slide_blend_witness :
    ((0:ℚ) < 2 ∧ (0:ℚ) < 1 ∧ (1:ℚ) < 2) ∧
      Animate.now (Animate.doStep (Animate.Slide (0:ℚ) 2 2) 2) = 2 ∧
      Animate.now (Animate.doStep (Animate.Slide (0:ℚ) 2 2) 1) = (1 - 1 / 2) * 0 + (1 / 2) * 2 :=
  ⟨⟨by norm_num, by norm_num, by norm_num⟩,
   (c4_slide_blend 0 2 2 1 (by norm_num) (by norm_num) (by norm_num)).1,
   (c4_slide_blend 0 2 2 1 (by norm_num) (by norm_num) (by norm_num)).2⟩

/-- C5 (counterexample): `normalize()` is not idempotent on `StepFunc` — the
stored callable is re-applied by every zero-duration step. -/
theorem c5_counterexample :
    Animate.now (Animate.normalize (Animate.normalize (Animate.StepFunc (fun v _ => v + 1) (0:ℚ))))
      ≠ Animate.now (Animate.normalize (Animate.StepFunc (fun v _ => v + 1) (0:ℚ))) := by
  norm_num [Animate.normalize, Animate.step, Animate.doStep, Animate.now]

/-- C5 (amended): `normalize()` is idempotent on every `Animate` value that
contains no `StepFunc` variant (also inside nested sequences):
`x.normalize().normalize()` has the same `now()` and `steady()` as
`x.normalize()`. -/
theorem c5_normalize_idempotent (x : Animate ℚ) (hx : Animate.noStepFunc x = true) :
    Animate.now (Animate.normalize (Animate.normalize x)) = Animate.now (Animate.normalize x)
    ∧ Animate.steady (Animate.normalize (Animate.normalize x)) = Animate.steady (Animate.normalize x) := by
  have h := doStep_then_zero x hx 0 le_rfl
  simp only [Animate.normalize, Animate.step]
  rw [h]
  exact ⟨rfl, rfl⟩

/-- Witness for C5 at `Slide(0,1,1)`. -/
theorem c5_normalize_idempotent_witness :
    Animate.noStepFunc (Animate.Slide (0:ℚ) 1 1) = true ∧
      (Animate.now (Animate.normalize (Animate.normalize (Animate.Slide (0:ℚ) 1 1)))
          = Animate.now (Animate.normalize (Animate.Slide (0:ℚ) 1 1))
       ∧ Animate.steady (Animate.normalize (Animate.normalize (Animate.Slide (0:ℚ) 1 1)))
          = Animate.steady (Animate.normalize (Animate.Slide (0:ℚ) 1 1))) :=
  ⟨by simp [Animate.noStepFunc], c5_normalize_idempotent _ (by simp [Animate.noStepFunc])⟩

/-- C6: `steady()` on `Animate` is true exactly on the `Fixed` variant; every
other variant — including `Sequence`, `Func`, `MixFunc`, `StepFunc` — reports
false. -/
theorem c6_steady_iff_fixed {V : Type} (x : Animate V) :
    Animate.steady x = true ↔ ∃ v, x = Animate.Fixed v := by
  cases x <;> simp [Animate.steady]

/-- C7: `steady()` on `AnimateSequence` is true iff the queue is empty or the
last (tail) entry's curve reports `steady()` — in particular a sequence whose
head is still animating but whose final entry is `Fixed` reports true. -/
theorem c7_seq_steady_checks_back {V : Type} :
    ∀ s : AnimateSequence V,
      AnimateSequence.steady s = true ↔
        (AnimateSequence.queue s = Queue.nil
         ∨ ∃ a t, Queue.back? (AnimateSequence.queue s) = some (a, t) ∧ Animate.steady a = true)
  | ⟨Queue.nil, e⟩ => by
    simp [AnimateSequence.steady, AnimateSequence.queue, Queue.back?]
  | ⟨Queue.cons a t rest, e⟩ => by
    obtain ⟨p, hp⟩ := Option.isSome_iff_exists.mp (back?_cons_isSome a t rest)
    rcases p with ⟨a1, t1⟩
    simp [AnimateSequence.steady, AnimateSequence.queue, hp]

/-- Folding the walk with an overshooting `dt` over a non-negative-duration
queue consumes everything. -/
theorem stepSpec_overshoot {V : Type} [Mixable V] :
    ∀ (q : Queue V) (dt : ℚ), Queue.allNonneg q → Queue.durSum q < dt →
      Queue.stepSpec q dt = Queue.nil
  | Queue.nil, dt, _, _ => by simp [Queue.stepSpec]
  | Queue.cons a t rest, dt, hq, hsum => by
    have hq' : 0 ≤ t ∧ Queue.allNonneg rest := by simpa [Queue.allNonneg] using hq
    have h1 : 0 ≤ Queue.durSum rest := durSum_nonneg rest hq'.2
    have hsum' : t + Queue.durSum rest < dt := by simpa [Queue.durSum] using hsum
    have h : t < dt := by linarith
    simp only [Queue.stepSpec, if_pos h]
    exact stepSpec_overshoot rest (dt - t) hq'.2 (by linarith)

/-- C9: if all entry durations are non-negative and `dt` strictly exceeds
their sum, `step(dt)` empties the queue and `now()` returns the end value. -/
theorem c9_overshoot_clears_queue {V : Type} [Mixable V] (q : Queue V) (e : V) (dt : ℚ)
    (hq : Queue.allNonneg q) (hdt : Queue.durSum q < dt) :
    AnimateSequence.step ⟨q, e⟩ dt = ⟨Queue.nil, e⟩
    ∧ AnimateSequence.now (AnimateSequence.step ⟨q, e⟩ dt) = e := by
  have h1 : AnimateSequence.step ⟨q, e⟩ dt = (⟨Queue.stepSpec q dt, e⟩ : AnimateSequence V) := by
    simp only [AnimateSequence.step]
    rw [stepLoop_drop]
  rw [stepSpec_overshoot q dt hq hdt] at h1
  refine ⟨h1, ?_⟩
  rw [h1]
  simp [AnimateSequence.now]

/-- Witness for C9 at the queue `[(Fixed 0, 1)]`, end `7`, `dt = 2`. -/
theorem c9_overshoot_clears_queue_witness :
    (Queue.allNonneg (Queue.cons (Animate.Fixed (0:ℚ)) 1 Queue.nil)
       ∧ Queue.durSum (Queue.cons (Animate.Fixed (0:ℚ)) 1 Queue.nil) < 2) ∧
      AnimateSequence.step ⟨Queue.cons (Animate.Fixed (0:ℚ)) 1 Queue.nil, 7⟩ 2 = ⟨Queue.nil, 7⟩ ∧
      AnimateSequence.now (AnimateSequence.step ⟨Queue.cons (Animate.Fixed (0:ℚ)) 1 Queue.nil, 7⟩ 2) = 7 :=
  ⟨⟨by norm_num [Queue.allNonneg], by norm_num [Queue.durSum]⟩,
   (c9_overshoot_clears_queue (Queue.cons (Animate.Fixed (0:ℚ)) 1 Queue.nil) 7 2
     (by norm_num [Queue.allNonneg]) (by norm_num [Queue.durSum])).1,
   (c9_overshoot_clears_queue (Queue.cons (Animate.Fixed (0:ℚ)) 1 Queue.nil) 7 2
     (by norm_num [Queue.allNonneg]) (by norm_num [Queue.durSum])).2⟩

/-- C10: on the `Switch` variant, stepping by `d1` then `d2` (both
non-negative) equals stepping once by `d1 + d2`, also across the transition
into `Fixed(b)`. -/
theorem c10_switch_step_additive {V : Type} [Mixable V] (a b : V) (t d1 d2 : ℚ)
    (h1 : 0 ≤ d1) (h2 : 0 ≤ d2) :
    Animate.doStep (Animate.doStep (Animate.Switch a b t) d1) d2
      = Animate.doStep (Animate.Switch a b t) (d1 + d2) := by
  by_cases ha : t < d1
  · have hb : t < d1 + d2 := by linarith
    simp [Animate.doStep, if_pos ha, if_pos hb]
  · by_cases hc : t - d1 < d2
    · have hb : t < d1 + d2 := by linarith
      simp [Animate.doStep, if_neg ha, if_pos hc, if_pos hb]
    · have hb : ¬ t < d1 + d2 := by push_neg at hc ⊢; linarith
      simp [Animate.doStep, if_neg ha, if_neg hc, if_neg hb]
      ring

/-- Witness for C10 at `Switch(0,1,1)` with `d1 = 3/5`, `d2 = 9/10`. -/
theorem c10_switch_step_additive_witness :
    ((0:ℚ) ≤ 3/5 ∧ (0:ℚ) ≤ 9/10) ∧
      Animate.doStep (Animate.doStep (Animate.Switch (0:ℚ) 1 1) (3/5)) (9/10)
        = Animate.doStep (Animate.Switch (0:ℚ) 1 1) (3/5 + 9/10) :=
  ⟨⟨by norm_num, by norm_num⟩,
   c10_switch_step_additive 0 1 1 (3/5) (9/10) (by norm_num) (by norm_num)⟩

/-- C8: closing the unit-rotation mixer is total: above the epsilon threshold
the result is the renormalized sum (a unit quaternion), below it the raw sum
is wrapped unchecked; neither branch fails. -/
theorem c8_unit_mixer_close_total (q : Quat) :
    Quat.closeUnitMix q =
      (if f32Epsilon * f32Epsilon < Quat.normSq q
       then Quat.scale (Real.sqrt (Quat.normSq q))⁻¹ q else q)
    ∧ (f32Epsilon * f32Epsilon < Quat.normSq q → Quat.normSq (Quat.closeUnitMix q) = 1) := by
  constructor
  · by_cases h : f32Epsilon * f32Epsilon < Quat.normSq q
    · simp [Quat.closeUnitMix, Quat.tryNewUnit, if_pos h]
    · simp [Quat.closeUnitMix, Quat.tryNewUnit, if_neg h]
  · intro h
    have hpos : 0 < Quat.normSq q := by
      have he : 0 < f32Epsilon := by norm_num [f32Epsilon]
      nlinarith
    have hsq : Real.sqrt (Quat.normSq q) * Real.sqrt (Quat.normSq q) = Quat.normSq q :=
      Real.mul_self_sqrt (le_of_lt hpos)
    rw [show Quat.closeUnitMix q = Quat.scale (Real.sqrt (Quat.normSq q))⁻¹ q from by
      simp [Quat.closeUnitMix, Quat.tryNewUnit, if_pos h]]
    have hexp : Quat.normSq (Quat.scale (Real.sqrt (Quat.normSq q))⁻¹ q)
        = ((Real.sqrt (Quat.normSq q))⁻¹ * (Real.sqrt (Quat.normSq q))⁻¹) * Quat.normSq q := by
      simp only [Quat.normSq, Quat.scale]
      ring
    rw [hexp, ← mul_inv, hsq]
    exact inv_mul_cancel₀ (ne_of_gt hpos)

/-- Witness for C8 at the quaternion `(3,0,4,0)` of norm `5`. -/
theorem c8_unit_mixer_close_total_witness :
    f32Epsilon * f32Epsilon < Quat.normSq ⟨3, 0, 4, 0⟩
    ∧ Quat.normSq (Quat.closeUnitMix ⟨3, 0, 4, 0⟩) = 1 :=
  ⟨by norm_num [Quat.normSq, f32Epsilon],
   (c8_unit_mixer_close_total ⟨3, 0, 4, 0⟩).2 (by norm_num [Quat.normSq, f32Epsilon])⟩
